import Mathlib

/-!
Verification of the rambo build-order engine (`rambo/meta.py`).

The Python class `MetaSet` keeps an ordered list `self.metas` of recipe
metadata objects (`Meta`), each carrying a package `name`, the raw build
dependency names `deps`, the subset `peer_bdeps` of those names that belong
to the working set, and the bookkeeping flags `complete`, `active`,
`archived` plus the derived `canonical_name`.

The embedding below is a direct shallow translation of the list-manipulating
methods of `MetaSet` (and the metadata validity check of `Meta`).  Python
code that can raise (name lookups via `MetaSet.index`, `max()` on an empty
list) is modelled with `Option`: `none` stands for an uncaught exception.
Python `for` loops that mutate the list they iterate over
(`MetaSet.optimize_build_order`) are modelled with an explicit cursor, the
way the CPython list iterator behaves.
-/

namespace Rambo

/-- One recipe metadata object: the fields of Python class `Meta`
(meta.py lines 43-63) that the `MetaSet` ordering and filtering code reads. -/
structure Meta where
  name : String
  deps : List String
  peer_bdeps : List String
  complete : Bool
  active : Bool
  archived : Bool
  canonical_name : String
deriving DecidableEq, Repr

/-- `MetaSet.index` (meta.py lines 426-431): first position of a record with
the given name; Python raises `IndexError` when the name is absent, modelled
as `none`. -/
def index (metas : List Meta) (mname : String) : Option Nat :=
  match metas with
  | [] => none
  | m :: rest =>
    if m.name = mname then some 0
    else (index rest mname).map (· + 1)

/-- Helper for `peer_bdep_indices`: look every dependency name up with
`index`, aborting (like the Python `IndexError`) at the first missing one. -/
def lookup_indices (metas : List Meta) : List String → Option (List Nat)
  | [] => some []
  | d :: rest =>
    match index metas d with
    | none => none
    | some i =>
      match lookup_indices metas rest with
      | none => none
      | some is => some (i :: is)

/-- `MetaSet.peer_bdep_indices` (meta.py lines 433-442): for every record
whose name matches, the positions of all of its peer build dependencies. -/
def peer_bdep_indices (metas : List Meta) (mname : String) : Option (List Nat) :=
  lookup_indices metas
    ((metas.filter (fun m => decide (m.name = mname))).flatMap (fun m => m.peer_bdeps))

/-- `MetaSet.position_OK` (meta.py lines 444-451): true iff no peer build
dependency sits at a larger index than the (first) record of that name.
When the index list is empty the Python loop body never runs, so
`self.index(mname)` is never evaluated and the result is `True`. -/
def position_OK (metas : List Meta) (mname : String) : Option Bool :=
  match peer_bdep_indices metas mname with
  | none => none
  | some is =>
    match is with
    | [] => some true
    | _ :: _ =>
      match index metas mname with
      | none => none
      | some idx => some (is.all (fun i => decide (i ≤ idx)))

/-- Python `max` over a list of numbers; `none` models the `ValueError`
raised on an empty list. -/
def pymax : List Nat → Option Nat
  | [] => none
  | x :: rest =>
    match pymax rest with
    | none => some x
    | some m => some (Nat.max x m)

/-- Python `list.insert(n, a)`: insert before position `n`, clamping to the
end of the list when `n` is past it. -/
def pyInsert {α : Type} : Nat → α → List α → List α
  | _, a, [] => [a]
  | 0, a, l => a :: l
  | n + 1, a, x :: rest => x :: pyInsert n a rest

/-- Python `del l[i]` for an in-range index (out of range indices never occur
in the modelled code paths; the model leaves the list unchanged there). -/
def delAt {α : Type} : Nat → List α → List α
  | _, [] => []
  | 0, _ :: rest => rest
  | n + 1, x :: rest => x :: delAt n rest

/-- `MetaSet.relocate` (meta.py lines 453-468): look up the record position,
compute `new_idx` as one past the largest peer dependency index, insert a
copy of the record at `new_idx`, then delete the entry at the old index
(from the grown list — exactly the Python statement order). -/
def relocate (metas : List Meta) (mname : String) : Option (List Meta) :=
  match index metas mname with
  | none => none
  | some idx =>
    match peer_bdep_indices metas mname with
    | none => none
    | some is =>
      match pymax is with
      | none => none
      | some mp =>
        match metas[idx]? with
        | none => none
        | some temp => some (delAt idx (pyInsert (mp + 1) temp metas))

/-- The cursor loop of `MetaSet.optimize_build_order` (meta.py lines
470-476).  CPython iterates `for m in self.metas` by an internal index into
the live, mutating list, so the loop is modelled with an explicit cursor
`k`; `fuel` bounds the iteration count (relocation preserves the length, so
`metas.length` steps are exactly the Python iteration count).  The second
component records the names visited by the cursor, in visit order. -/
def optimize_loop : List Meta → Nat → Nat → Option (List Meta × List String)
  | metas, _, 0 => some (metas, [])
  | metas, k, fuel + 1 =>
    match metas[k]? with
    | none => some (metas, [])
    | some m =>
      match position_OK metas m.name with
      | none => none
      | some ok =>
        if ok then
          match optimize_loop metas (k + 1) fuel with
          | none => none
          | some (fin, vs) => some (fin, m.name :: vs)
        else
          match relocate metas m.name with
          | none => none
          | some metas2 =>
            match optimize_loop metas2 (k + 1) fuel with
            | none => none
            | some (fin, vs) => some (fin, m.name :: vs)

/-- `MetaSet.optimize_build_order` (meta.py lines 470-476): one pass. -/
def optimize_build_order (metas : List Meta) : Option (List Meta) :=
  (optimize_loop metas 0 metas.length).map Prod.fst

/-- The names the cursor of one pass actually visits (observer used to talk
about which records a pass examines). -/
def optimize_visited (metas : List Meta) : Option (List String) :=
  (optimize_loop metas 0 metas.length).map Prod.snd

/-- The violation-counting loop of `MetaSet.multipass_optimize` (meta.py
lines 490-492): count the records failing `position_OK`. -/
def count_notOK_aux (metas : List Meta) : List Meta → Option Nat
  | [] => some 0
  | m :: rest =>
    match position_OK metas m.name with
    | none => none
    | some ok =>
      match count_notOK_aux metas rest with
      | none => none
      | some n => some (if ok then n else n + 1)

/-- Number of records of the list failing `position_OK`. -/
def count_notOK (metas : List Meta) : Option Nat :=
  count_notOK_aux metas metas

/-- The `while` loop of `MetaSet.multipass_optimize` (meta.py lines
484-492), carrying `opass` and `num_notOK`.  `opass` grows by one per
iteration and the loop stops at `max_passes`, so `fuel = max_passes - opass`
makes the fuel-out and guard-fail exits coincide. -/
def multipass_loop (max_passes : Nat) :
    List Meta → Nat → Nat → Nat → Option (Nat × Nat × List Meta)
  | metas, opass, num_notOK, 0 => some (opass, num_notOK, metas)
  | metas, opass, num_notOK, fuel + 1 =>
    if num_notOK > 0 ∧ opass < max_passes then
      match optimize_build_order metas with
      | none => none
      | some metas2 =>
        match count_notOK metas2 with
        | none => none
        | some num2 => multipass_loop max_passes metas2 (opass + 1) num2 fuel
    else some (opass, num_notOK, metas)

/-- `MetaSet.multipass_optimize` (meta.py lines 478-499) up to its final
`return`: the pass counter, the violation count of the last executed pass,
and the final list. -/
def multipass_state (metas : List Meta) (max_passes : Nat) :
    Option (Nat × Nat × List Meta) :=
  multipass_loop max_passes metas 0 1 max_passes

/-- `MetaSet.multipass_optimize` (meta.py lines 478-499): `False` exactly
when `opass == max_passes` at loop exit (lines 493-499), paired with the
final list the Python object keeps in `self.metas`. -/
def multipass_optimize (metas : List Meta) (max_passes : Nat) :
    Option (Bool × List Meta) :=
  (multipass_state metas max_passes).map
    (fun t => (if t.1 = max_passes then false else true, t.2.2))

/-- Comparison used by `sorted(key=lambda meta: meta.name)`. -/
def byName (a b : Meta) : Bool := decide (a.name ≤ b.name)

/-- Comparison used by `sorted(key=lambda meta: len(meta.peer_bdeps))`. -/
def byNumPeers (a b : Meta) : Bool := decide (a.peer_bdeps.length ≤ b.peer_bdeps.length)

/-- `MetaSet.sort_by_peer_bdeps` (meta.py lines 406-416): a stable sort by
name followed by a stable sort by peer build dependency count. -/
def sort_by_peer_bdeps (metas : List Meta) : List Meta :=
  (metas.mergeSort byName).mergeSort byNumPeers

/-- `MetaSet.merge_metas` (meta.py lines 382-391): sort the incomplete
records alphabetically by name and prepend them (in order) to the list. -/
def merge_metas (incomplete_metas : List Meta) (metas : List Meta) : List Meta :=
  (incomplete_metas.mergeSort byName) ++ metas

/-- `MetaSet.filter_by_manifest` (meta.py lines 375-380): deactivate every
record whose name is not in the manifest package list; touch nothing else. -/
def filter_by_manifest (metas : List Meta) (packages : List String) : List Meta :=
  metas.map (fun m => if m.name ∈ packages then m else { m with active := false })

/-- `MetaSet.flag_archived` (meta.py lines 515-523): mark every record whose
canonical name appears in the channel archive index as archived. -/
def flag_archived (metas : List Meta) (channel_packages : List String) : List Meta :=
  metas.map (fun m =>
    if m.canonical_name ∈ channel_packages then { m with archived := true } else m)

/-- `MetaSet.print` (meta.py lines 549-554): the full ordered name list. -/
def print_list (metas : List Meta) : List String :=
  metas.map (fun m => m.name)

/-- `MetaSet.print_culled` (meta.py lines 564-569): names of the records
that are active and not archived, in sequence order. -/
def print_culled (metas : List Meta) : List String :=
  (metas.filter (fun m => m.active && !m.archived)).map (fun m => m.name)

/-- The ordering pipeline as run by `MetaSet.__init__` (meta.py lines
200-202) followed by `main` (rambo/__main__.py line 128): initial sort,
merge of the incomplete records, multipass optimization. -/
def pipeline (incomplete_metas metas : List Meta) (max_passes : Nat) :
    Option (Bool × List Meta) :=
  multipass_optimize (merge_metas incomplete_metas (sort_by_peer_bdeps metas)) max_passes

/-- Rendered recipe metadata as read by `Meta.is_valid` and
`Meta.import_metadata`: the `package` section (with its `name`) and the
`requirements` section (with its optional `build` list) are each optional,
mirroring the presence or absence of the corresponding dictionary keys. -/
structure MData where
  package_name : Option String
  requirements_build : Option (List String)
deriving DecidableEq, Repr

/-- `Meta.is_valid` (meta.py lines 122-128): sets `valid = True`, assigns
the dead local `complete` when the `package` key is missing, and returns
`valid` — so the result is `true` for every metadata dictionary. -/
def is_valid (mdata : MData) : Bool :=
  let valid := true
  let _complete := if mdata.package_name.isNone then false else true
  valid

/-- The name-extraction step of `Meta.import_metadata` (meta.py lines
97-100): `self.valid = self.is_valid()` followed by
`if self.valid: self.name = self.mdata[package][name]`, where the
subscript raises `KeyError` (modelled as `Except.error`) when the
`package` section is absent. -/
def import_name_step (mdata : MData) : Except String (Option String) :=
  if is_valid mdata then
    match mdata.package_name with
    | none => Except.error "KeyError: package"
    | some n => Except.ok (some n)
  else
    Except.ok none

/-! Concrete working sets used by the witnesses and counterexamples. -/

/-- Build a complete record whose build dependencies all lie in the set. -/
def mkRec (n : String) (peers : List String) : Meta :=
  { name := n, deps := peers, peer_bdeps := peers, complete := true,
    active := true, archived := false, canonical_name := n }

/-- Two records forming a dependency two-cycle, in initial-sort order. -/
def twoCycle : List Meta := [mkRec "a" ["b"], mkRec "b" ["a"]]

/-- A seven-package dependency chain presented in reverse order: each
record depends on the next one in the list.  The engine needs exactly eight
passes to sort it. -/
def revChainSeven : List Meta :=
  [mkRec "g" ["f"], mkRec "f" ["e"], mkRec "e" ["d"], mkRec "d" ["c"],
   mkRec "c" ["b"], mkRec "b" ["a"], mkRec "a" []]

/-- `revChainSeven` in dependency order. -/
def chainSevenSorted : List Meta :=
  [mkRec "a" [], mkRec "b" ["a"], mkRec "c" ["b"], mkRec "d" ["c"],
   mkRec "e" ["d"], mkRec "f" ["e"], mkRec "g" ["f"]]

/-- An incomplete record: no dependency information at all. -/
def mkInc (n : String) : Meta :=
  { name := n, deps := [], peer_bdeps := [], complete := false,
    active := true, archived := false, canonical_name := n }

/-- Two records in correct build order (a tiny already-sorted chain). -/
def chainTwo : List Meta := [mkRec "a" [], mkRec "b" ["a"]]

/-- Strict comparison of record names (used to state that the alphabetical
sort has a unique result when names are pairwise distinct). -/
def nameLt (a b : Meta) : Prop := a.name < b.name

instance : IsAntisymm Meta nameLt where
  antisymm _ _ h1 h2 := absurd (lt_trans h1 h2) (lt_irrefl _)

/-- A record that lists itself among its peer build dependencies. -/
def selfDep : List Meta := [mkRec "s" ["s"]]

/-- Working set where the first relocation makes the cursor skip a
violating record. -/
def gadget : List Meta :=
  [mkRec "c" ["a"], mkRec "s" ["d"], mkRec "a" [], mkRec "d" []]

/-- `gadget` after its first pass. -/
def gadgetAfter : List Meta :=
  [mkRec "s" ["d"], mkRec "a" [], mkRec "c" ["a"], mkRec "d" []]

/-- Three records where `relocate` on the non-violating record `r`
duplicates it and destroys another record. -/
def demoNonViolating : List Meta :=
  [mkRec "a" [], mkRec "b" [], mkRec "r" ["a"]]

/-- Two records where `r` is out of position. -/
def demoViolating : List Meta := [mkRec "r" ["b"], mkRec "b" []]

/-! Basic facts about `index`. -/

theorem index_lt_length {metas : List Meta} {x : String} {k : Nat}
    (h : index metas x = some k) : k < metas.length := by
  induction metas generalizing k with
  | nil => simp [index] at h
  | cons m rest ih =>
    simp only [index] at h
    by_cases hm : m.name = x
    · simp [hm] at h
      simp
      omega
    · simp [hm] at h
      obtain ⟨k2, hk2, rfl⟩ := h
      have := ih hk2
      simp
      omega

theorem index_getElem {metas : List Meta} {x : String} {k : Nat}
    (h : index metas x = some k) : ∃ m, metas[k]? = some m ∧ m.name = x := by
  induction metas generalizing k with
  | nil => simp [index] at h
  | cons m rest ih =>
    simp only [index] at h
    by_cases hm : m.name = x
    · simp [hm] at h
      subst h
      exact ⟨m, by simp, hm⟩
    · simp [hm] at h
      obtain ⟨k2, hk2, rfl⟩ := h
      obtain ⟨m2, hm2, hn2⟩ := ih hk2
      exact ⟨m2, by simpa using hm2, hn2⟩

theorem index_none_iff {metas : List Meta} {x : String} :
    index metas x = none ↔ ∀ m ∈ metas, m.name ≠ x := by
  induction metas with
  | nil => simp [index]
  | cons m rest ih =>
    simp only [index]
    by_cases hm : m.name = x
    · simp [hm]
    · simp [hm, ih]

theorem index_isSome_of_mem {metas : List Meta} {m : Meta}
    (h : m ∈ metas) : ∃ k, index metas m.name = some k := by
  cases hk : index metas m.name with
  | some k => exact ⟨k, rfl⟩
  | none => exact absurd rfl (index_none_iff.mp hk m h)

/-- With pairwise distinct names, `index` finds any given occurrence. -/
theorem index_unique {metas : List Meta} {x : String} {k : Nat} {m : Meta}
    (hn : (metas.map Meta.name).Nodup)
    (hk : metas[k]? = some m) (hx : m.name = x) : index metas x = some k := by
  induction metas generalizing k with
  | nil => simp at hk
  | cons m0 rest ih =>
    simp only [List.map_cons, List.nodup_cons] at hn
    cases k with
    | zero =>
      simp at hk
      subst hk
      simp [index, hx]
    | succ k2 =>
      simp at hk
      have hmem : m ∈ rest := by
        have := List.getElem?_eq_some_iff.mp hk
        obtain ⟨hlt, hget⟩ := this
        exact hget ▸ List.getElem_mem hlt
      have hne : m0.name ≠ x := by
        intro he
        apply hn.1
        rw [he, ← hx]
        exact List.mem_map_of_mem Meta.name hmem
      simp [index, hne, ih hn.2 hk]

/-- Distinct names: distinct positions hold records with distinct names. -/
theorem name_ne_of_ne_idx {metas : List Meta} {p q : Nat} {mp mq : Meta}
    (hn : (metas.map Meta.name).Nodup)
    (hp : metas[p]? = some mp) (hq : metas[q]? = some mq) (hpq : p ≠ q) :
    mp.name ≠ mq.name := by
  intro he
  obtain ⟨hplt, hpe⟩ := List.getElem?_eq_some_iff.mp hp
  obtain ⟨hqlt, hqe⟩ := List.getElem?_eq_some_iff.mp hq
  have hplt2 : p < (metas.map Meta.name).length := by simpa using hplt
  have hqlt2 : q < (metas.map Meta.name).length := by simpa using hqlt
  apply hpq
  have : (metas.map Meta.name)[p] = (metas.map Meta.name)[q] := by
    simp only [List.getElem_map]
    rw [hpe, hqe]
    exact he
  exact (List.Nodup.getElem_inj_iff hn).mp this

theorem index_append_of_not_mem {l1 l2 : List Meta} {x : String}
    (h : ∀ m ∈ l1, m.name ≠ x) :
    index (l1 ++ l2) x = (index l2 x).map (· + l1.length) := by
  induction l1 with
  | nil => simp
  | cons m rest ih =>
    have hm : m.name ≠ x := h m (by simp)
    simp only [List.cons_append, index, hm, if_false]
    simp only [List.append_eq]
    rw [ih (fun m2 hm2 => h m2 (by simp [hm2]))]
    cases index l2 x with
    | none => simp
    | some v =>
      simp
      omega

/-! Basic facts about `pymax`, `pyInsert`, `delAt`, `lookup_indices`. -/

theorem pymax_mem {is : List Nat} {mp : Nat} (h : pymax is = some mp) :
    mp ∈ is := by
  induction is generalizing mp with
  | nil => simp [pymax] at h
  | cons x rest ih =>
    simp only [pymax] at h
    cases hr : pymax rest with
    | none => rw [hr] at h; simp at h; simp [h]
    | some m =>
      rw [hr] at h
      simp at h
      rcases Nat.le_total x m with hc | hc
      · have hmx : Nat.max x m = m := Nat.max_eq_right hc
        rw [← h, hmx]
        exact List.mem_cons_of_mem x (ih hr)
      · have hmx : Nat.max x m = x := Nat.max_eq_left hc
        rw [← h, hmx]
        exact List.mem_cons_self x rest

theorem pymax_eq_none_iff {is : List Nat} : pymax is = none ↔ is = [] := by
  cases is with
  | nil => simp [pymax]
  | cons x rest =>
    simp only [pymax]
    cases pymax rest <;> simp

theorem le_pymax_of_mem {is : List Nat} {mp i : Nat}
    (h : pymax is = some mp) (hi : i ∈ is) : i ≤ mp := by
  induction is generalizing mp with
  | nil => simp at hi
  | cons x rest ih =>
    simp only [pymax] at h
    cases hr : pymax rest with
    | none =>
      rw [hr] at h
      simp at h
      rcases List.mem_cons.mp hi with rfl | hmem
      · exact Nat.le_of_eq h
      · exact absurd hmem (by simp [pymax_eq_none_iff.mp hr])
    | some m =>
      rw [hr] at h
      simp at h
      rcases List.mem_cons.mp hi with rfl | hmem
      · rw [← h]
        exact Nat.le_max_left i m
      · rw [← h]
        exact (ih hr hmem).trans (Nat.le_max_right x m)

theorem pymax_isSome_of_ne_nil {is : List Nat} (h : is ≠ []) :
    ∃ mp, pymax is = some mp := by
  cases is with
  | nil => exact absurd rfl h
  | cons x rest =>
    simp only [pymax]
    cases pymax rest <;> simp

theorem length_pyInsert {α : Type} (n : Nat) (a : α) (l : List α) :
    (pyInsert n a l).length = l.length + 1 := by
  induction l generalizing n with
  | nil => cases n <;> simp [pyInsert]
  | cons x rest ih =>
    cases n with
    | zero => simp [pyInsert]
    | succ n2 => simp [pyInsert, ih]

theorem pyInsert_perm {α : Type} (n : Nat) (a : α) (l : List α) :
    (pyInsert n a l).Perm (a :: l) := by
  induction l generalizing n with
  | nil => cases n <;> simp [pyInsert]
  | cons x rest ih =>
    cases n with
    | zero => simp [pyInsert]
    | succ n2 =>
      simp only [pyInsert]
      exact (List.Perm.cons x (ih n2)).trans (List.Perm.swap a x rest)

theorem map_pyInsert {α β : Type} (f : α → β) (n : Nat) (a : α) (l : List α) :
    (pyInsert n a l).map f = pyInsert n (f a) (l.map f) := by
  induction l generalizing n with
  | nil => cases n <;> simp [pyInsert]
  | cons x rest ih =>
    cases n with
    | zero => simp [pyInsert]
    | succ n2 => simp [pyInsert, ih]

theorem getElem?_pyInsert_lt {α : Type} {n p : Nat} {a : α} {l : List α}
    (hp : p < n) (hn : n ≤ l.length) : (pyInsert n a l)[p]? = l[p]? := by
  induction l generalizing n p with
  | nil => simp at hn; omega
  | cons x rest ih =>
    cases n with
    | zero => omega
    | succ n2 =>
      cases p with
      | zero => simp [pyInsert]
      | succ p2 =>
        simp only [pyInsert]
        simp only [List.getElem?_cons_succ]
        exact ih (by omega) (by simpa using hn)

theorem getElem?_pyInsert_self {α : Type} {n : Nat} {a : α} {l : List α}
    (hn : n ≤ l.length) : (pyInsert n a l)[n]? = some a := by
  induction l generalizing n with
  | nil =>
    simp at hn
    subst hn
    simp [pyInsert]
  | cons x rest ih =>
    cases n with
    | zero => simp [pyInsert]
    | succ n2 =>
      simp only [pyInsert, List.getElem?_cons_succ]
      exact ih (by simpa using hn)

theorem getElem?_pyInsert_gt {α : Type} {n p : Nat} {a : α} {l : List α}
    (hp : n < p) : (pyInsert n a l)[p]? = l[p - 1]? := by
  induction l generalizing n p with
  | nil =>
    cases p with
    | zero => omega
    | succ p2 => simp [pyInsert]
  | cons x rest ih =>
    cases n with
    | zero =>
      cases p with
      | zero => omega
      | succ p2 => simp [pyInsert]
    | succ n2 =>
      cases p with
      | zero => omega
      | succ p2 =>
        simp only [pyInsert, List.getElem?_cons_succ, Nat.add_sub_cancel]
        rw [ih (show n2 < p2 by omega)]
        cases p2 with
        | zero => omega
        | succ p3 => simp

theorem length_delAt {α : Type} {n : Nat} {l : List α} (h : n < l.length) :
    (delAt n l).length = l.length - 1 := by
  induction l generalizing n with
  | nil => simp at h
  | cons x rest ih =>
    cases n with
    | zero => simp [delAt]
    | succ n2 =>
      simp only [delAt, List.length_cons]
      rw [ih (by simpa using h)]
      simp at h
      omega

theorem getElem?_delAt {α : Type} (n p : Nat) (l : List α) :
    (delAt n l)[p]? = if p < n then l[p]? else l[p + 1]? := by
  induction l generalizing n p with
  | nil => cases n <;> simp [delAt]
  | cons x rest ih =>
    cases n with
    | zero => simp [delAt]
    | succ n2 =>
      cases p with
      | zero => simp [delAt]
      | succ p2 =>
        simp only [delAt, List.getElem?_cons_succ]
        rw [ih]
        by_cases hc : p2 < n2 <;> simp [hc, Nat.succ_lt_succ_iff]

theorem delAt_perm {α : Type} {n : Nat} {l : List α} {a : α}
    (h : l[n]? = some a) : l.Perm (a :: delAt n l) := by
  induction l generalizing n with
  | nil => simp at h
  | cons x rest ih =>
    cases n with
    | zero =>
      simp at h
      subst h
      simp [delAt]
    | succ n2 =>
      simp at h
      simp only [delAt]
      exact ((ih h).cons x).trans (List.Perm.swap a x (delAt n2 rest))

theorem map_delAt {α β : Type} (f : α → β) (n : Nat) (l : List α) :
    (delAt n l).map f = delAt n (l.map f) := by
  induction l generalizing n with
  | nil => cases n <;> simp [delAt]
  | cons x rest ih =>
    cases n with
    | zero => simp [delAt]
    | succ n2 => simp [delAt, ih]

theorem take_delAt {α : Type} {j n : Nat} (l : List α) (h : j ≤ n) :
    (delAt n l).take j = l.take j := by
  induction l generalizing j n with
  | nil => cases n <;> simp [delAt]
  | cons x rest ih =>
    cases n with
    | zero =>
      have : j = 0 := by omega
      subst this
      simp
    | succ n2 =>
      cases j with
      | zero => simp
      | succ j2 =>
        simp only [delAt, List.take_succ_cons]
        rw [ih (show j2 ≤ n2 by omega)]

theorem take_pyInsert {α : Type} {j n : Nat} {a : α} (l : List α)
    (h : j ≤ n) (hl : j ≤ l.length) :
    (pyInsert n a l).take j = l.take j := by
  induction l generalizing j n with
  | nil =>
    simp at hl
    simp [hl]
  | cons x rest ih =>
    cases n with
    | zero =>
      have : j = 0 := by omega
      subst this
      simp
    | succ n2 =>
      cases j with
      | zero => simp
      | succ j2 =>
        simp only [pyInsert, List.take_succ_cons]
        rw [ih (show j2 ≤ n2 by omega) (show j2 ≤ rest.length by simp at hl; omega)]

theorem delAt_pyInsert {α : Type} {i j : Nat} {a : α} {l : List α}
    (hij : i ≤ j) (hi : i < l.length) :
    delAt i (pyInsert (j + 1) a l) = pyInsert j a (delAt i l) := by
  induction l generalizing i j with
  | nil => simp at hi
  | cons x rest ih =>
    cases i with
    | zero => simp [pyInsert, delAt]
    | succ i2 =>
      cases j with
      | zero => omega
      | succ j2 =>
        simp only [pyInsert, delAt]
        rw [ih (by omega) (by simpa using hi)]

theorem lookup_indices_mem {metas : List Meta} {ds : List String}
    {is : List Nat} {i : Nat}
    (h : lookup_indices metas ds = some is) (hi : i ∈ is) :
    ∃ d ∈ ds, index metas d = some i := by
  induction ds generalizing is with
  | nil => simp [lookup_indices] at h; subst h; simp at hi
  | cons d rest ih =>
    simp only [lookup_indices] at h
    cases hd : index metas d with
    | none => rw [hd] at h; simp at h
    | some i0 =>
      rw [hd] at h
      cases hr : lookup_indices metas rest with
      | none => rw [hr] at h; simp at h
      | some is2 =>
        rw [hr] at h
        simp at h
        subst h
        rcases List.mem_cons.mp hi with rfl | hmem
        · exact ⟨d, by simp, hd⟩
        · obtain ⟨d2, hd2, hidx⟩ := ih hr hmem
          exact ⟨d2, by simp [hd2], hidx⟩

theorem lookup_indices_sound {metas : List Meta} {ds : List String}
    {is : List Nat} {d : String}
    (h : lookup_indices metas ds = some is) (hd : d ∈ ds) :
    ∃ i ∈ is, index metas d = some i := by
  induction ds generalizing is with
  | nil => simp at hd
  | cons d0 rest ih =>
    simp only [lookup_indices] at h
    cases hd0 : index metas d0 with
    | none => rw [hd0] at h; simp at h
    | some i0 =>
      rw [hd0] at h
      cases hr : lookup_indices metas rest with
      | none => rw [hr] at h; simp at h
      | some is2 =>
        rw [hr] at h
        simp at h
        subst h
        rcases List.mem_cons.mp hd with rfl | hmem
        · exact ⟨i0, by simp, hd0⟩
        · obtain ⟨i, hi, hidx⟩ := ih hr hmem
          exact ⟨i, by simp [hi], hidx⟩

theorem lookup_indices_of_forall {metas : List Meta} {ds : List String}
    {P : Nat → Prop}
    (h : ∀ d ∈ ds, ∃ i, index metas d = some i ∧ P i) :
    ∃ is, lookup_indices metas ds = some is ∧ (∀ i ∈ is, P i) ∧
      is.length = ds.length := by
  induction ds with
  | nil => exact ⟨[], by simp [lookup_indices]⟩
  | cons d rest ih =>
    obtain ⟨i0, hi0, hp0⟩ := h d (by simp)
    obtain ⟨is2, his2, hall, hlen⟩ := ih (fun d2 hd2 => h d2 (by simp [hd2]))
    refine ⟨i0 :: is2, ?_, ?_, by simp [hlen]⟩
    · simp only [lookup_indices, hi0, his2]
    · intro i hi
      rcases List.mem_cons.mp hi with rfl | hmem
      · exact hp0
      · exact hall i hmem

theorem lookup_indices_ne_nil {metas : List Meta} {ds : List String}
    {is : List Nat}
    (h : lookup_indices metas ds = some is) (hne : is ≠ []) : ds ≠ [] := by
  intro hd
  subst hd
  simp [lookup_indices] at h
  exact hne h

/-! Semantic lemmas about `peer_bdep_indices`, `position_OK` and
`relocate` on working sets with pairwise distinct names. -/

theorem delAt_sublist {α : Type} (n : Nat) (l : List α) :
    (delAt n l).Sublist l := by
  induction l generalizing n with
  | nil => simp [delAt]
  | cons x rest ih =>
    cases n with
    | zero =>
      simp only [delAt]
      exact List.sublist_cons_self x rest
    | succ n2 =>
      simp only [delAt]
      exact (ih n2).cons₂ x

theorem filter_name_singleton {metas : List Meta} {idx : Nat} {temp : Meta}
    {x : String}
    (hn : (metas.map Meta.name).Nodup)
    (hget : metas[idx]? = some temp) (hname : temp.name = x) :
    metas.filter (fun m => decide (m.name = x)) = [temp] := by
  induction metas generalizing idx with
  | nil => simp at hget
  | cons m0 rest ih =>
    simp only [List.map_cons, List.nodup_cons] at hn
    cases idx with
    | zero =>
      simp at hget
      subst hget
      rw [List.filter_cons_of_pos (by simp [hname])]
      have : rest.filter (fun m => decide (m.name = x)) = [] := by
        rw [List.filter_eq_nil_iff]
        intro m hm hd
        simp at hd
        exact hn.1 (by rw [hname, ← hd]; exact List.mem_map_of_mem Meta.name hm)
      rw [this]
    | succ idx2 =>
      simp at hget
      have hmem : temp ∈ rest := by
        obtain ⟨hlt, hg⟩ := List.getElem?_eq_some_iff.mp hget
        exact hg ▸ List.getElem_mem hlt
      have hne : ¬ (m0.name = x) := by
        intro he
        apply hn.1
        rw [he, ← hname]
        exact List.mem_map_of_mem Meta.name hmem
      rw [List.filter_cons_of_neg (by simp [hne])]
      exact ih hn.2 hget

/-- With distinct names, the peer dependency index list of a record name is
the lookup of exactly that record's `peer_bdeps`. -/
theorem peer_bdep_indices_eq {metas : List Meta} {idx : Nat} {temp : Meta}
    {x : String}
    (hn : (metas.map Meta.name).Nodup)
    (hget : metas[idx]? = some temp) (hname : temp.name = x) :
    peer_bdep_indices metas x = lookup_indices metas temp.peer_bdeps := by
  unfold peer_bdep_indices
  rw [filter_name_singleton hn hget hname]
  simp

theorem position_OK_false_elim {metas : List Meta} {x : String}
    (h : position_OK metas x = some false) :
    ∃ is idx, peer_bdep_indices metas x = some is ∧
      index metas x = some idx ∧ ∃ i ∈ is, idx < i := by
  unfold position_OK at h
  cases his : peer_bdep_indices metas x with
  | none => rw [his] at h; simp at h
  | some is =>
    rw [his] at h
    cases is with
    | nil => simp at h
    | cons i0 irest =>
      cases hidx : index metas x with
      | none => rw [hidx] at h; simp at h
      | some idx =>
        rw [hidx] at h
        simp only [Option.some.injEq] at h
        have hall := List.all_eq_false.mp h
        obtain ⟨i, hi, hfi⟩ := hall
        exact ⟨i0 :: irest, idx, rfl, rfl, i, hi, by simpa using hfi⟩

theorem position_OK_true_elim {metas : List Meta} {x : String} {is : List Nat}
    (h : position_OK metas x = some true)
    (his : peer_bdep_indices metas x = some is) :
    is = [] ∨ ∃ idx, index metas x = some idx ∧ ∀ i ∈ is, i ≤ idx := by
  unfold position_OK at h
  rw [his] at h
  cases is with
  | nil => exact Or.inl rfl
  | cons i0 irest =>
    cases hidx : index metas x with
    | none => rw [hidx] at h; simp at h
    | some idx =>
      rw [hidx] at h
      simp only [Option.some.injEq] at h
      refine Or.inr ⟨idx, rfl, ?_⟩
      intro i hi
      have := List.all_eq_true.mp h i hi
      simpa using this

theorem index_delAt_none {metas : List Meta} {idx : Nat} {temp : Meta}
    {x : String}
    (hn : (metas.map Meta.name).Nodup)
    (hget : metas[idx]? = some temp) (hname : temp.name = x) :
    index (delAt idx metas) x = none := by
  rw [index_none_iff]
  intro m hm he
  obtain ⟨p, hp⟩ := List.mem_iff_getElem?.mp hm
  rw [getElem?_delAt] at hp
  by_cases hc : p < idx
  · rw [if_pos hc] at hp
    exact name_ne_of_ne_idx hn hp hget (by omega) (he.trans hname.symm)
  · rw [if_neg hc] at hp
    exact name_ne_of_ne_idx hn hp hget (by omega) (he.trans hname.symm)

theorem index_pyInsert_self_named {l2 : List Meta} {mp : Nat} {temp : Meta}
    {x : String}
    (hnone : index l2 x = none) (hname : temp.name = x) (hmp : mp ≤ l2.length) :
    index (pyInsert mp temp l2) x = some mp := by
  induction l2 generalizing mp with
  | nil =>
    simp at hmp
    subst hmp
    simp [pyInsert, index, hname]
  | cons y rest ih =>
    simp only [index] at hnone
    by_cases hy : y.name = x
    · simp [hy] at hnone
    · simp only [hy, if_false] at hnone
      cases hrest : index rest x with
      | some v => rw [hrest] at hnone; simp at hnone
      | none =>
        cases mp with
        | zero => simp [pyInsert, index, hname]
        | succ mp2 =>
          simp only [pyInsert, index, hy, if_false]
          rw [ih hrest (by simpa using hmp)]
          simp

theorem nodup_names_delAt {metas : List Meta} (idx : Nat)
    (hn : (metas.map Meta.name).Nodup) :
    ((delAt idx metas).map Meta.name).Nodup := by
  rw [map_delAt]
  exact (delAt_sublist idx (metas.map Meta.name)).nodup hn

theorem nodup_names_pyInsert {l2 : List Meta} {mp : Nat} {temp : Meta}
    (hn : (l2.map Meta.name).Nodup)
    (hnone : index l2 temp.name = none) :
    ((pyInsert mp temp l2).map Meta.name).Nodup := by
  rw [map_pyInsert]
  have hperm := pyInsert_perm mp temp.name (l2.map Meta.name)
  rw [hperm.nodup_iff]
  rw [List.nodup_cons]
  constructor
  · intro hmem
    obtain ⟨m, hm, he⟩ := List.mem_map.mp hmem
    exact index_none_iff.mp hnone m hm he
  · exact hn

/-- Unfolding of `relocate` at known intermediate values, together with the
move-commutation: the clone-insert-delete of the Python code equals, for a
violating record, remove-then-reinsert at the old maximal peer index. -/
theorem relocate_eq_move {metas : List Meta} {mname : String}
    {idx mp : Nat} {is : List Nat} {temp : Meta}
    (hidx : index metas mname = some idx)
    (his : peer_bdep_indices metas mname = some is)
    (hmp : pymax is = some mp)
    (htemp : metas[idx]? = some temp)
    (hlt : idx < mp) :
    relocate metas mname = some (pyInsert mp temp (delAt idx metas)) := by
  simp only [relocate, hidx, his, hmp, htemp]
  rw [delAt_pyInsert (Nat.le_of_lt hlt) (index_lt_length hidx)]

/-- A successful `relocate` permutes the working set (when invoked on a
record that is actually out of position, so that the deleted entry is the
original copy of the moved record). -/
theorem relocate_perm_of_violating {metas : List Meta}
    {idx mp : Nat} {temp : Meta}
    (htemp : metas[idx]? = some temp) :
    (pyInsert mp temp (delAt idx metas)).Perm metas := by
  have h1 := pyInsert_perm mp temp (delAt idx metas)
  have h2 := delAt_perm htemp
  exact h1.trans h2.symm

/-- Core correctness of `relocate` on a record that is out of position:
the record is moved (not duplicated) to sit directly after the peer
dependency that previously had the largest index, and it then satisfies
`position_OK`. -/
theorem relocate_result_correct {metas : List Meta} {mname : String}
    {idx mp : Nat} {is : List Nat}
    (hn : (metas.map Meta.name).Nodup)
    (hidx : index metas mname = some idx)
    (his : peer_bdep_indices metas mname = some is)
    (hmp : pymax is = some mp)
    (hlt : idx < mp) :
    ∃ temp dmax,
      metas[idx]? = some temp ∧ metas[mp]? = some dmax ∧
      dmax.name ∈ temp.peer_bdeps ∧
      relocate metas mname = some (pyInsert mp temp (delAt idx metas)) ∧
      (pyInsert mp temp (delAt idx metas))[mp - 1]? = some dmax ∧
      index (pyInsert mp temp (delAt idx metas)) mname = some mp ∧
      position_OK (pyInsert mp temp (delAt idx metas)) mname = some true := by
  have hidxlen : idx < metas.length := index_lt_length hidx
  obtain ⟨temp, htemp, htname⟩ := index_getElem hidx
  have hpb : peer_bdep_indices metas mname = lookup_indices metas temp.peer_bdeps :=
    peer_bdep_indices_eq hn htemp htname
  have his2 : lookup_indices metas temp.peer_bdeps = some is := by
    rw [← hpb]
    exact his
  have hmpmem : mp ∈ is := pymax_mem hmp
  obtain ⟨dn, hdn, hdidx⟩ := lookup_indices_mem his2 hmpmem
  obtain ⟨dmax, hdmax, hdname⟩ := index_getElem hdidx
  have hmplen : mp < metas.length := index_lt_length hdidx
  have hl2len : (delAt idx metas).length = metas.length - 1 := length_delAt hidxlen
  have hmpl2 : mp ≤ (delAt idx metas).length := by omega
  have hrel := relocate_eq_move hidx his hmp htemp hlt
  have hnone : index (delAt idx metas) mname = none := index_delAt_none hn htemp htname
  have hidxr : index (pyInsert mp temp (delAt idx metas)) mname = some mp :=
    index_pyInsert_self_named hnone htname hmpl2
  have hnr : ((pyInsert mp temp (delAt idx metas)).map Meta.name).Nodup :=
    nodup_names_pyInsert (nodup_names_delAt idx hn) (by rw [htname]; exact hnone)
  have hadj : (pyInsert mp temp (delAt idx metas))[mp - 1]? = some dmax := by
    rw [getElem?_pyInsert_lt (by omega) hmpl2]
    rw [getElem?_delAt, if_neg (by omega)]
    have he1 : mp - 1 + 1 = mp := by omega
    rw [he1]
    exact hdmax
  have hisne : is ≠ [] := by
    intro he
    rw [he] at hmp
    simp [pymax] at hmp
  have hdsne : temp.peer_bdeps ≠ [] := lookup_indices_ne_nil his2 hisne
  have hforall : ∀ d ∈ temp.peer_bdeps,
      ∃ i, index (pyInsert mp temp (delAt idx metas)) d = some i ∧ i ≤ mp := by
    intro d hd
    obtain ⟨j, hjmem, hjidx⟩ := lookup_indices_sound his2 hd
    have hjle : j ≤ mp := le_pymax_of_mem hmp hjmem
    by_cases hdm : d = mname
    · refine ⟨mp, ?_, Nat.le_refl mp⟩
      rw [hdm]
      exact hidxr
    · obtain ⟨md, hmd, hmdname⟩ := index_getElem hjidx
      have hjne : j ≠ idx := by
        intro he
        rw [he, htemp] at hmd
        simp at hmd
        apply hdm
        rw [← hmdname, ← hmd, htname]
      by_cases hc : j < idx
      · have hjl2 : (delAt idx metas)[j]? = some md := by
          rw [getElem?_delAt, if_pos hc]
          exact hmd
        have hjr : (pyInsert mp temp (delAt idx metas))[j]? = some md := by
          rw [getElem?_pyInsert_lt (by omega) hmpl2]
          exact hjl2
        exact ⟨j, index_unique hnr hjr hmdname, by omega⟩
      · have hjl2 : (delAt idx metas)[j - 1]? = some md := by
          rw [getElem?_delAt, if_neg (by omega)]
          have he2 : j - 1 + 1 = j := by omega
          rw [he2]
          exact hmd
        have hjr : (pyInsert mp temp (delAt idx metas))[j - 1]? = some md := by
          rw [getElem?_pyInsert_lt (by omega) hmpl2]
          exact hjl2
        exact ⟨j - 1, index_unique hnr hjr hmdname, by omega⟩
  obtain ⟨is2, his2r, hall2, hlen2⟩ := lookup_indices_of_forall hforall
  have hgetmp : (pyInsert mp temp (delAt idx metas))[mp]? = some temp :=
    getElem?_pyInsert_self hmpl2
  have hpb2 : peer_bdep_indices (pyInsert mp temp (delAt idx metas)) mname =
      lookup_indices (pyInsert mp temp (delAt idx metas)) temp.peer_bdeps :=
    peer_bdep_indices_eq hnr hgetmp htname
  have hposr : position_OK (pyInsert mp temp (delAt idx metas)) mname = some true := by
    cases his2c : is2 with
    | nil =>
      rw [his2c] at hlen2
      simp at hlen2
      exact absurd (List.length_eq_zero.mp hlen2.symm) hdsne
    | cons i0 irest =>
      rw [his2c] at his2r hall2
      simp only [position_OK, hpb2, his2r, hidxr]
      simp only [Option.some.injEq]
      rw [List.all_eq_true]
      intro i hi
      simpa using hall2 i hi
  exact ⟨temp, dmax, htemp, hdmax, by rw [hdname]; exact hdn, hrel, hadj, hidxr, hposr⟩

/-! Invariants of the multipass driver loop. -/

/-- Exit analysis of the `while` loop: the pass counter never exceeds
`max_passes`, the loop only stops when the guard fails, and except for an
immediate exit the reported violation count is the count of the final
list. -/
theorem multipass_loop_spec {mpn : Nat} :
    ∀ (fuel : Nat) (metas : List Meta) (opass num op nm : Nat) (fin : List Meta),
      multipass_loop mpn metas opass num fuel = some (op, nm, fin) →
      opass + fuel = mpn →
      op ≤ mpn ∧ ¬(0 < nm ∧ op < mpn) ∧
        (count_notOK fin = some nm ∨ (op = opass ∧ nm = num ∧ fin = metas)) := by
  intro fuel
  induction fuel with
  | zero =>
    intro metas opass num op nm fin h hsum
    simp only [multipass_loop, Option.some.injEq, Prod.mk.injEq] at h
    obtain ⟨rfl, rfl, rfl⟩ := h
    exact ⟨by omega, by omega, Or.inr ⟨rfl, rfl, rfl⟩⟩
  | succ fuel ih =>
    intro metas opass num op nm fin h hsum
    simp only [multipass_loop] at h
    by_cases hg : 0 < num ∧ opass < mpn
    · rw [if_pos hg] at h
      cases hopt : optimize_build_order metas with
      | none =>
        simp only [hopt] at h
        exact absurd h (by simp)
      | some metas2 =>
        simp only [hopt] at h
        cases hcnt : count_notOK metas2 with
        | none =>
          simp only [hcnt] at h
          exact absurd h (by simp)
        | some num2 =>
          simp only [hcnt] at h
          obtain ⟨ha, hb, hc⟩ := ih metas2 (opass + 1) num2 op nm fin h (by omega)
          refine ⟨ha, hb, Or.inl ?_⟩
          rcases hc with hc | ⟨rfl, rfl, rfl⟩
          · exact hc
          · exact hcnt
    · rw [if_neg hg] at h
      simp only [Option.some.injEq, Prod.mk.injEq] at h
      obtain ⟨rfl, rfl, rfl⟩ := h
      exact ⟨by omega, hg, Or.inr ⟨rfl, rfl, rfl⟩⟩

theorem multipass_state_spec {metas : List Meta} {mpn op nm : Nat}
    {fin : List Meta}
    (h : multipass_state metas mpn = some (op, nm, fin)) :
    op ≤ mpn ∧ ¬(0 < nm ∧ op < mpn) ∧
      (count_notOK fin = some nm ∨ (op = 0 ∧ nm = 1 ∧ fin = metas)) :=
  multipass_loop_spec mpn metas 0 1 op nm fin h (by omega)

/-- A `True` verdict means the pass loop stopped before the pass budget
with a violation-free final list. -/
theorem multipass_success_count_zero {metas : List Meta} {mpn : Nat}
    {fin : List Meta}
    (h : multipass_optimize metas mpn = some (true, fin)) :
    count_notOK fin = some 0 := by
  unfold multipass_optimize at h
  cases hst : multipass_state metas mpn with
  | none => rw [hst] at h; simp at h
  | some t =>
    rw [hst] at h
    obtain ⟨op, nm, fin0⟩ := t
    by_cases he : op = mpn
    · simp [he] at h
    · simp [he] at h
      obtain ⟨oplt, oknm, hcnt⟩ := multipass_state_spec hst
      have hlt : op < mpn := by omega
      have hnm : nm = 0 := by
        by_contra hne
        exact oknm ⟨by omega, hlt⟩
      rcases hcnt with hcnt | ⟨h0, h1, h2⟩
      · rw [← h, hcnt, hnm]
      · omega

theorem count_notOK_aux_zero {metas l : List Meta}
    (h : count_notOK_aux metas l = some 0) :
    ∀ m ∈ l, position_OK metas m.name = some true := by
  induction l with
  | nil =>
    intro m hm
    simp at hm
  | cons m0 rest ih =>
    intro m hm
    simp only [count_notOK_aux] at h
    cases hp : position_OK metas m0.name with
    | none => rw [hp] at h; simp at h
    | some ok =>
      rw [hp] at h
      cases hr : count_notOK_aux metas rest with
      | none => rw [hr] at h; simp at h
      | some n =>
        rw [hr] at h
        simp only [Option.some.injEq] at h
        have hok : ok = true ∧ n = 0 := by
          cases ok
          · simp at h
          · simp at h
            exact ⟨rfl, h⟩
        rcases List.mem_cons.mp hm with rfl | hmem
        · rw [hp, hok.1]
        · exact ih (by rw [hr, hok.2]) m hmem

/-- A record passing `position_OK` has each of its peer dependencies
strictly before it — except possibly the record itself (self-dependency). -/
theorem position_OK_true_all_before {fin : List Meta} {r : Meta} {d : String}
    (hm : r ∈ fin) (hd : d ∈ r.peer_bdeps) (hne : d ≠ r.name)
    (hpos : position_OK fin r.name = some true) :
    ∃ i j, index fin d = some i ∧ index fin r.name = some j ∧ i < j := by
  cases his : peer_bdep_indices fin r.name with
  | none =>
    simp only [position_OK, his] at hpos
    exact absurd hpos (by simp)
  | some is =>
    have hds : d ∈ (fin.filter
        (fun m => decide (m.name = r.name))).flatMap (fun m => m.peer_bdeps) :=
      List.mem_flatMap.mpr ⟨r, List.mem_filter.mpr ⟨hm, by simp⟩, hd⟩
    have hlook : lookup_indices fin
        ((fin.filter (fun m => decide (m.name = r.name))).flatMap
          (fun m => m.peer_bdeps)) = some is := his
    obtain ⟨i, hi, hidxd⟩ := lookup_indices_sound hlook hds
    rcases position_OK_true_elim hpos his with rfl | ⟨jdx, hjdx, hall⟩
    · simp at hi
    · have hile : i ≤ jdx := hall i hi
      have hine : i ≠ jdx := by
        intro he
        obtain ⟨mi, hmi, hmin⟩ := index_getElem hidxd
        obtain ⟨mj, hmj, hmjn⟩ := index_getElem hjdx
        rw [he, hmj] at hmi
        simp at hmi
        apply hne
        rw [← hmin, ← hmi]
        exact hmjn
      exact ⟨i, jdx, hidxd, hjdx, by omega⟩

/-! Preservation of the incomplete-record block at the head of the list. -/

/-- A relocation triggered by a position violation never touches the block
of records at the head of the list (the merged incomplete records): those
records carry no peer dependencies, so the moved record and its insertion
point both lie beyond the block. -/
theorem relocate_preserves_front
    {front t comp : List Meta} {x : String} {s2 : List Meta}
    (hn : ((front ++ comp).map Meta.name).Nodup)
    (hfp : ∀ m ∈ front, m.peer_bdeps = [])
    (hcp : ∀ m ∈ comp, ∀ d ∈ m.peer_bdeps, d ∈ comp.map Meta.name)
    (ht : t.Perm comp)
    (hfalse : position_OK (front ++ t) x = some false)
    (hrel : relocate (front ++ t) x = some s2) :
    ∃ t2, s2 = front ++ t2 ∧ t2.Perm comp := by
  have hperm : (front ++ t).Perm (front ++ comp) := List.Perm.append_left front ht
  have hns : ((front ++ t).map Meta.name).Nodup :=
    ((hperm.map Meta.name).nodup_iff).mpr hn
  obtain ⟨is, idx, his, hidx, i0, hi0, hlti⟩ := position_OK_false_elim hfalse
  obtain ⟨temp, htemp, htname⟩ := index_getElem hidx
  have hds : peer_bdep_indices (front ++ t) x =
      lookup_indices (front ++ t) temp.peer_bdeps :=
    peer_bdep_indices_eq hns htemp htname
  have his2 : lookup_indices (front ++ t) temp.peer_bdeps = some is := by
    rw [← hds]
    exact his
  have htmem : temp ∈ front ++ t := by
    obtain ⟨hlt2, hg⟩ := List.getElem?_eq_some_iff.mp htemp
    exact hg ▸ List.getElem_mem hlt2
  have hpne : temp.peer_bdeps ≠ [] := by
    intro hpe
    rw [hpe] at his2
    simp [lookup_indices] at his2
    rw [his2] at hi0
    simp at hi0
  have htcomp : temp ∈ comp := by
    rcases List.mem_append.mp htmem with hf | htt
    · exact absurd (hfp temp hf) hpne
    · exact ht.mem_iff.mp htt
  have hdisj : ∀ y ∈ front, ∀ z ∈ comp, y.name ≠ z.name := by
    rw [List.map_append, List.nodup_append] at hn
    intro y hy z hz he
    exact hn.2.2 (List.mem_map_of_mem Meta.name hy)
      (by rw [he]; exact List.mem_map_of_mem Meta.name hz)
  have hxfront : ∀ m ∈ front, m.name ≠ x := by
    intro m hmf he
    exact hdisj m hmf temp htcomp (by rw [he, htname])
  have hidxt := @index_append_of_not_mem front t x hxfront
  rw [hidxt] at hidx
  have hidxge : front.length ≤ idx := by
    cases hjt : index t x with
    | none => rw [hjt] at hidx; simp at hidx
    | some j => rw [hjt] at hidx; simp at hidx; omega
  have hidx2 : index (front ++ t) x = some idx := by
    rw [hidxt]
    exact hidx
  have hige : ∀ i ∈ is, front.length ≤ i := by
    intro i hi
    obtain ⟨d, hd, hdi⟩ := lookup_indices_mem his2 hi
    have hdc : d ∈ comp.map Meta.name := hcp temp htcomp d hd
    have hdnf : ∀ m ∈ front, m.name ≠ d := by
      intro m hmf he
      obtain ⟨z, hz, hze⟩ := List.mem_map.mp hdc
      exact hdisj m hmf z hz (by rw [he, hze])
    rw [@index_append_of_not_mem front t d hdnf] at hdi
    cases hjt : index t d with
    | none => rw [hjt] at hdi; simp at hdi
    | some j => rw [hjt] at hdi; simp at hdi; omega
  have hisne : is ≠ [] := by
    intro he
    rw [he] at hi0
    simp at hi0
  obtain ⟨mp, hmp⟩ := pymax_isSome_of_ne_nil hisne
  have hlt : idx < mp := lt_of_lt_of_le hlti (le_pymax_of_mem hmp hi0)
  have hs2 : s2 = pyInsert mp temp (delAt idx (front ++ t)) := by
    have hmove := relocate_eq_move hidx2 his hmp htemp hlt
    rw [hmove] at hrel
    exact (Option.some.inj hrel).symm
  have hmpge : front.length ≤ mp := hige mp (pymax_mem hmp)
  have htne : t ≠ [] := by
    intro he
    rw [he] at ht
    rw [ht.symm.eq_nil] at htcomp
    simp at htcomp
  have hidxlen : idx < (front ++ t).length := index_lt_length hidx2
  have hl2len : (delAt idx (front ++ t)).length = (front ++ t).length - 1 :=
    length_delAt hidxlen
  have htake : (pyInsert mp temp (delAt idx (front ++ t))).take front.length
      = front := by
    rw [take_pyInsert _ hmpge
      (by
        rw [hl2len]
        simp only [List.length_append]
        have : t.length ≠ 0 := fun hz => htne (List.length_eq_zero.mp hz)
        omega)]
    rw [take_delAt _ hidxge]
    exact List.take_left front t
  have hperm2 : (pyInsert mp temp (delAt idx (front ++ t))).Perm (front ++ t) :=
    relocate_perm_of_violating htemp
  refine ⟨(pyInsert mp temp (delAt idx (front ++ t))).drop front.length, ?_, ?_⟩
  · rw [hs2]
    conv_lhs => rw [← List.take_append_drop front.length
      (pyInsert mp temp (delAt idx (front ++ t)))]
    rw [htake]
  · have heq : front ++ (pyInsert mp temp (delAt idx (front ++ t))).drop front.length
        = pyInsert mp temp (delAt idx (front ++ t)) := by
      conv_rhs => rw [← List.take_append_drop front.length
        (pyInsert mp temp (delAt idx (front ++ t)))]
      rw [htake]
    have hp3 : (front ++ (pyInsert mp temp (delAt idx (front ++ t))).drop
        front.length).Perm (front ++ t) := by
      rw [heq]
      exact hperm2
    exact ((List.perm_append_left_iff front).mp hp3).trans ht

/-- One cursor step of a pass keeps the incomplete block in place. -/
theorem optimize_loop_preserves_front
    {front comp : List Meta}
    (hn : ((front ++ comp).map Meta.name).Nodup)
    (hfp : ∀ m ∈ front, m.peer_bdeps = [])
    (hcp : ∀ m ∈ comp, ∀ d ∈ m.peer_bdeps, d ∈ comp.map Meta.name) :
    ∀ (fuel : Nat) (s : List Meta) (k : Nat) (fin : List Meta)
      (vs : List String),
      (∃ t, s = front ++ t ∧ t.Perm comp) →
      optimize_loop s k fuel = some (fin, vs) →
      ∃ t2, fin = front ++ t2 ∧ t2.Perm comp := by
  intro fuel
  induction fuel with
  | zero =>
    intro s k fin vs hinv h
    simp only [optimize_loop, Option.some.injEq, Prod.mk.injEq] at h
    rw [← h.1]
    exact hinv
  | succ fuel ih =>
    intro s k fin vs hinv h
    simp only [optimize_loop] at h
    cases hk : s[k]? with
    | none =>
      simp only [hk, Option.some.injEq, Prod.mk.injEq] at h
      rw [← h.1]
      exact hinv
    | some m =>
      simp only [hk] at h
      cases hpos : position_OK s m.name with
      | none =>
        simp only [hpos] at h
        exact absurd h (by simp)
      | some ok =>
        simp only [hpos] at h
        cases ok with
        | true =>
          simp only [if_true] at h
          cases hrec : optimize_loop s (k + 1) fuel with
          | none =>
            simp only [hrec] at h
            exact absurd h (by simp)
          | some p =>
            obtain ⟨fin0, vs0⟩ := p
            simp only [hrec, Option.some.injEq, Prod.mk.injEq] at h
            rw [← h.1]
            exact ih s (k + 1) fin0 vs0 hinv hrec
        | false =>
          rw [if_neg (by simp)] at h
          cases hrel : relocate s m.name with
          | none =>
            simp only [hrel] at h
            exact absurd h (by simp)
          | some s2 =>
            simp only [hrel] at h
            cases hrec : optimize_loop s2 (k + 1) fuel with
            | none =>
              simp only [hrec] at h
              exact absurd h (by simp)
            | some p =>
              obtain ⟨fin0, vs0⟩ := p
              simp only [hrec, Option.some.injEq, Prod.mk.injEq] at h
              obtain ⟨t, rfl, htp⟩ := hinv
              have hinv2 := relocate_preserves_front hn hfp hcp htp hpos hrel
              rw [← h.1]
              exact ih s2 (k + 1) fin0 vs0 hinv2 hrec

/-- A whole pass keeps the incomplete block in place. -/
theorem optimize_build_order_preserves_front
    {front comp s fin : List Meta}
    (hn : ((front ++ comp).map Meta.name).Nodup)
    (hfp : ∀ m ∈ front, m.peer_bdeps = [])
    (hcp : ∀ m ∈ comp, ∀ d ∈ m.peer_bdeps, d ∈ comp.map Meta.name)
    (hinv : ∃ t, s = front ++ t ∧ t.Perm comp)
    (h : optimize_build_order s = some fin) :
    ∃ t2, fin = front ++ t2 ∧ t2.Perm comp := by
  unfold optimize_build_order at h
  cases hl : optimize_loop s 0 s.length with
  | none => rw [hl] at h; simp at h
  | some p =>
    obtain ⟨fin0, vs0⟩ := p
    rw [hl] at h
    simp at h
    rw [← h]
    exact optimize_loop_preserves_front hn hfp hcp s.length s 0 fin0 vs0 hinv hl

/-! Determinism of the initial alphabetical sort. -/

theorem byName_sorted (l : List Meta) :
    List.Pairwise (fun a b => byName a b = true) (l.mergeSort byName) := by
  apply List.sorted_mergeSort
  · intro a b c hab hbc
    simp only [byName, decide_eq_true_eq] at *
    exact le_trans hab hbc
  · intro a b
    simp only [byName]
    rcases le_total a.name b.name with h | h <;> simp [h]

theorem sorted_nameLt_of {l : List Meta}
    (hs : List.Pairwise (fun a b => byName a b = true) l)
    (hn : (l.map Meta.name).Nodup) : List.Sorted nameLt l := by
  have hne : List.Pairwise (fun a b : Meta => a.name ≠ b.name) l :=
    List.pairwise_map.mp hn
  show List.Pairwise nameLt l
  refine (hs.and hne).imp ?_
  intro a b hab
  exact lt_of_le_of_ne (by simpa [byName] using hab.1) hab.2

/-- A stable sort by name is a function of the record multiset whenever the
names are pairwise distinct. -/
theorem mergeSort_byName_eq {l1 l2 : List Meta}
    (hn : (l1.map Meta.name).Nodup) (hp : l1.Perm l2) :
    l1.mergeSort byName = l2.mergeSort byName := by
  have hp1 : (l1.mergeSort byName).Perm l1 := List.mergeSort_perm l1 byName
  have hp2 : (l2.mergeSort byName).Perm l2 := List.mergeSort_perm l2 byName
  have hpp : (l1.mergeSort byName).Perm (l2.mergeSort byName) :=
    hp1.trans (hp.trans hp2.symm)
  have hn1 : ((l1.mergeSort byName).map Meta.name).Nodup :=
    ((hp1.map Meta.name).nodup_iff).mpr hn
  have hn2 : ((l2.mergeSort byName).map Meta.name).Nodup := by
    have hn0 : (l2.map Meta.name).Nodup := ((hp.map Meta.name).nodup_iff).mp hn
    exact ((hp2.map Meta.name).nodup_iff).mpr hn0
  exact List.eq_of_perm_of_sorted hpp
    (sorted_nameLt_of (byName_sorted l1) hn1)
    (sorted_nameLt_of (byName_sorted l2) hn2)

theorem sort_by_peer_bdeps_eq {l1 l2 : List Meta}
    (hn : (l1.map Meta.name).Nodup) (hp : l1.Perm l2) :
    sort_by_peer_bdeps l1 = sort_by_peer_bdeps l2 := by
  unfold sort_by_peer_bdeps
  rw [mergeSort_byName_eq hn hp]

/-! Step semantics of the pass cursor (used for the pass-behaviour claim). -/

theorem optimize_loop_step_keeps {s : List Meta} {k fuel : Nat} {m : Meta}
    (hk : s[k]? = some m)
    (htrue : position_OK s m.name = some true) :
    optimize_loop s k (fuel + 1) =
      (optimize_loop s (k + 1) fuel).map (fun p => (p.1, m.name :: p.2)) := by
  simp only [optimize_loop, hk, htrue, if_true]
  cases optimize_loop s (k + 1) fuel with
  | none => simp
  | some p =>
    obtain ⟨a, b⟩ := p
    simp

theorem optimize_loop_step_relocates {s s2 : List Meta} {k fuel : Nat}
    {m : Meta}
    (hk : s[k]? = some m)
    (hfalse : position_OK s m.name = some false)
    (hrel : relocate s m.name = some s2) :
    optimize_loop s k (fuel + 1) =
      (optimize_loop s2 (k + 1) fuel).map (fun p => (p.1, m.name :: p.2)) := by
  simp only [optimize_loop, hk, hfalse, hrel]
  rw [if_neg (by simp)]
  cases optimize_loop s2 (k + 1) fuel with
  | none => simp
  | some p =>
    obtain ⟨a, b⟩ := p
    simp

/-! Output and filter helpers. -/

theorem flag_archived_print_list (metas : List Meta) (idx : List String) :
    print_list (flag_archived metas idx) = print_list metas := by
  induction metas with
  | nil => simp [print_list, flag_archived]
  | cons m rest ih =>
    simp only [print_list, flag_archived, List.map_cons] at *
    by_cases hc : m.canonical_name ∈ idx <;> simp [hc, ih]

theorem flag_archived_print_culled (metas : List Meta) (idx : List String) :
    print_culled (flag_archived metas idx) =
      (metas.filter (fun m =>
        m.active && !m.archived && !(decide (m.canonical_name ∈ idx)))).map
        (fun m => m.name) := by
  induction metas with
  | nil => simp [print_culled, flag_archived]
  | cons m rest ih =>
    simp only [print_culled, flag_archived, List.map_cons] at *
    by_cases hc : m.canonical_name ∈ idx
    · rw [if_pos hc]
      rw [List.filter_cons, List.filter_cons]
      simp [hc, ih]
    · rw [if_neg hc]
      rw [List.filter_cons, List.filter_cons]
      by_cases ha : m.active && !m.archived
      · simp [ha, hc, ih]
      · simp [ha, hc, ih]

/-- Evaluation of the alphabetical sort on the two-record incomplete block
used by the witnesses (the sort itself is defined by well-founded recursion
and does not reduce definitionally). -/
theorem mergeSort_pair_zy :
    ([mkInc "z", mkInc "y"] : List Meta).mergeSort byName =
      [mkInc "y", mkInc "z"] := by
  have hp : (([mkInc "z", mkInc "y"] : List Meta).mergeSort byName).Perm
      [mkInc "y", mkInc "z"] :=
    (List.mergeSort_perm _ byName).trans
      (List.Perm.swap (mkInc "y") (mkInc "z") [])
  have hn : ((([mkInc "z", mkInc "y"] : List Meta).mergeSort byName).map
      Meta.name).Nodup := by
    have hq := List.mergeSort_perm ([mkInc "z", mkInc "y"] : List Meta) byName
    exact ((hq.map Meta.name).nodup_iff).mpr (by decide)
  refine List.eq_of_perm_of_sorted hp
    (sorted_nameLt_of (byName_sorted _) hn) ?_
  show List.Pairwise nameLt [mkInc "y", mkInc "z"]
  refine List.Pairwise.cons ?_ (List.Pairwise.cons (by simp) List.Pairwise.nil)
  intro b hb
  rcases List.mem_cons.mp hb with rfl | hb2
  · show (mkInc "y").name < (mkInc "z").name
    simp [mkInc]
    decide
  · simp at hb2

/-! Claim theorems. -/

/-- Claim C1 (amended): when `multipass_optimize` returns the success
indicator, every complete record of the final sequence has all of its peer
dependencies other than itself at a strictly smaller index.  (As frozen,
with strict precedence demanded also for a self-dependency, the claim fails
— see the counterexample.) -/
theorem multipass_success_precedence :
    ∀ (metas fin : List Meta) (mpn : Nat) (r : Meta) (d : String),
      multipass_optimize metas mpn = some (true, fin) →
      r ∈ fin → r.complete = true → d ∈ r.peer_bdeps → d ≠ r.name →
      ∃ i j, index fin d = some i ∧ index fin r.name = some j ∧ i < j := by
  intro metas fin mpn r d hmp hr _hc hd hne
  have hcnt := multipass_success_count_zero hmp
  have hall := count_notOK_aux_zero (by simpa [count_notOK] using hcnt)
  exact position_OK_true_all_before hr hd hne (hall r hr)

/-- Claim C1, witness: on the ordered two-record chain the engine succeeds
and the dependency sits strictly before the dependent record. -/
theorem multipass_success_precedence_witness :
    ∃ i j, index chainTwo "a" = some i ∧
      index chainTwo (mkRec "b" ["a"]).name = some j ∧ i < j :=
  multipass_success_precedence chainTwo chainTwo 8 (mkRec "b" ["a"]) "a"
    (by decide) (by decide) (by decide) (by decide) (by decide)

/-- Claim C1, counterexample: a single record that names itself as a peer
build dependency.  The engine returns success (its `position_OK` tolerates
an equal index), yet the strict precedence `index d < index r` demanded by
the claim is false since both indices are `0`. -/
theorem selfdep_success_without_strict_precedence :
    multipass_optimize selfDep 8 = some (true, selfDep) ∧
    mkRec "s" ["s"] ∈ selfDep ∧
    (mkRec "s" ["s"]).complete = true ∧
    "s" ∈ (mkRec "s" ["s"]).peer_bdeps ∧
    index selfDep "s" = some 0 ∧
    index selfDep (mkRec "s" ["s"]).name = some 0 ∧
    ¬ (0 : Nat) < 0 := by
  refine ⟨by decide, by decide, by decide, by decide, by decide, by decide, by decide⟩

/-- Claim C2 (amended): the engine returns the failure indicator exactly
when the loop has executed the full pass budget: persisting violations
force that (so failure is returned whenever violations remain), but a run
that converges precisely on the final allowed pass is also reported as a
failure; in every case the final ordering and the violation count of the
exit state are available, and a success verdict implies the sequence
converged with zero violations. -/
theorem multipass_failure_characterization :
    ∀ (metas fin : List Meta) (mpn op nm : Nat),
      multipass_state metas mpn = some (op, nm, fin) →
      multipass_optimize metas mpn =
        some (if op = mpn then false else true, fin) ∧
      (0 < nm → multipass_optimize metas mpn = some (false, fin)) ∧
      (op < mpn → nm = 0 ∧ multipass_optimize metas mpn = some (true, fin)) := by
  intro metas fin mpn op nm hst
  obtain ⟨hle, hgd, _hcnt⟩ := multipass_state_spec hst
  have h1 : multipass_optimize metas mpn =
      some (if op = mpn then false else true, fin) := by
    unfold multipass_optimize
    rw [hst]
    rfl
  refine ⟨h1, ?_, ?_⟩
  · intro hnm
    have hop : op = mpn := by
      by_contra hne
      exact hgd ⟨hnm, by omega⟩
    rw [h1, if_pos hop]
  · intro hop
    have hnm : nm = 0 := by
      by_contra hne
      exact hgd ⟨by omega, hop⟩
    exact ⟨hnm, by rw [h1, if_neg (by omega)]⟩

/-- Claim C2, witness: on the dependency two-cycle violations persist
(count 1 after the final pass) and the engine indeed returns the failure
indicator together with the best-effort ordering. -/
theorem multipass_failure_characterization_witness :
    multipass_optimize twoCycle 8 = some (false, twoCycle) :=
  (multipass_failure_characterization twoCycle twoCycle 8 8 1
    (by decide)).2.1 (by decide)

/-- Claim C2, counterexample: the reversed seven-package chain is acyclic
and converges to a fully ordered sequence on pass 8 of 8 — zero violations
remain — yet the engine still returns the failure indicator, refuting
"failure exactly when violations persist". -/
theorem chain_failure_with_zero_violations :
    multipass_state revChainSeven 8 = some (8, 0, chainSevenSorted) ∧
    multipass_optimize revChainSeven 8 = some (false, chainSevenSorted) ∧
    count_notOK chainSevenSorted = some 0 := by
  refine ⟨by decide, by decide, by decide⟩

/-- Claim C3 (amended): on the two-record cycle the engine runs exactly 8
passes and returns failure, but the number of records failing
`position_OK` after the final pass is 1, not 2: in each oscillation state
exactly one of the two cyclic records is out of position. -/
theorem twoCycle_multipass_result :
    multipass_state twoCycle 8 = some (8, 1, twoCycle) ∧
    multipass_optimize twoCycle 8 = some (false, twoCycle) := by
  refine ⟨by decide, by decide⟩

/-- Claim C3, counterexample: the violation count after the final pass on
the two-cycle is 1, not the 2 stated by the claim. -/
theorem twoCycle_count_is_one_not_two :
    (multipass_state twoCycle 8).map (fun t => t.2.1) = some 1 ∧
    ¬ (multipass_state twoCycle 8).map (fun t => t.2.1) = some 2 := by
  refine ⟨by decide, by decide⟩

/-- Claim C4 (amended): for a record that fails `position_OK` (the only
situation in which the engine invokes `relocate`), `relocate` removes the
record and reinserts it immediately after the peer dependency that had the
largest index, and the record then satisfies `position_OK`.  (As frozen —
for every record with at least one peer dependency — the claim fails: on a
record that is not out of position the insert-then-delete pair deletes the
wrong element; see the counterexample.) -/
theorem relocate_moves_violating_record :
    ∀ (metas : List Meta) (mname : String),
      (metas.map Meta.name).Nodup →
      position_OK metas mname = some false →
      ∃ idx is mp temp dmax,
        index metas mname = some idx ∧
        peer_bdep_indices metas mname = some is ∧
        pymax is = some mp ∧ idx < mp ∧
        metas[idx]? = some temp ∧ metas[mp]? = some dmax ∧
        dmax.name ∈ temp.peer_bdeps ∧
        relocate metas mname = some (pyInsert mp temp (delAt idx metas)) ∧
        (pyInsert mp temp (delAt idx metas))[mp - 1]? = some dmax ∧
        index (pyInsert mp temp (delAt idx metas)) mname = some mp ∧
        position_OK (pyInsert mp temp (delAt idx metas)) mname = some true := by
  intro metas mname hn hfalse
  obtain ⟨is, idx, his, hidx, i0, hi0, hlti⟩ := position_OK_false_elim hfalse
  have hisne : is ≠ [] := by
    intro he
    rw [he] at hi0
    simp at hi0
  obtain ⟨mp, hmp⟩ := pymax_isSome_of_ne_nil hisne
  have hlt : idx < mp := lt_of_lt_of_le hlti (le_pymax_of_mem hmp hi0)
  obtain ⟨temp, dmax, htemp, hdmax, hdn, hrel, hadj, hidxr, hposr⟩ :=
    relocate_result_correct hn hidx his hmp hlt
  exact ⟨idx, is, mp, temp, dmax, hidx, his, hmp, hlt, htemp, hdmax, hdn,
    hrel, hadj, hidxr, hposr⟩

/-- Claim C4, witness: the out-of-position record `r` of `demoViolating`
is moved to directly after its single peer dependency and is then
correctly placed. -/
theorem relocate_moves_violating_record_witness :
    ∃ idx is mp temp dmax,
      index demoViolating "r" = some idx ∧
      peer_bdep_indices demoViolating "r" = some is ∧
      pymax is = some mp ∧ idx < mp ∧
      demoViolating[idx]? = some temp ∧ demoViolating[mp]? = some dmax ∧
      dmax.name ∈ temp.peer_bdeps ∧
      relocate demoViolating "r" = some (pyInsert mp temp (delAt idx demoViolating)) ∧
      (pyInsert mp temp (delAt idx demoViolating))[mp - 1]? = some dmax ∧
      index (pyInsert mp temp (delAt idx demoViolating)) "r" = some mp ∧
      position_OK (pyInsert mp temp (delAt idx demoViolating)) "r" = some true :=
  relocate_moves_violating_record demoViolating "r" (by decide) (by decide)

/-- Claim C4, counterexample: calling `relocate` on the record `r` of
`demoNonViolating` — which has a peer dependency but is *not* out of
position — duplicates `r` and destroys the unrelated record `b`, so
`relocate` does not simply remove and reinsert the record as the claim
states for every record with at least one peer dependency. -/
theorem relocate_nonviolating_corrupts :
    mkRec "b" [] ∈ demoNonViolating ∧
    relocate demoNonViolating "r" =
      some [mkRec "a" [], mkRec "r" ["a"], mkRec "r" ["a"]] ∧
    ¬ "b" ∈ print_list [mkRec "a" [], mkRec "r" ["a"], mkRec "r" ["a"]] := by
  refine ⟨by decide, by decide, by decide⟩

/-- Claim C5 (amended): when the pass cursor visits a record that fails
`position_OK` at that moment, it relocates it immediately, and the rest of
the pass runs on the updated sequence (the visited-name trace records the
visit).  The universally quantified "no record failing positionOK during
the pass goes unexamined" part of the frozen claim is false: a relocation
can shift an unvisited record to or before the cursor, and that record is
then skipped for the remainder of the pass — see the counterexample. -/
theorem optimize_pass_step_semantics :
    ∀ (s s2 : List Meta) (k fuel : Nat) (m : Meta),
      s[k]? = some m →
      position_OK s m.name = some false →
      relocate s m.name = some s2 →
      optimize_loop s k (fuel + 1) =
        (optimize_loop s2 (k + 1) fuel).map (fun p => (p.1, m.name :: p.2)) := by
  intro s s2 k fuel m hk hfalse hrel
  exact optimize_loop_step_relocates hk hfalse hrel

/-- Claim C5, witness: the first step of the pass over `gadget` relocates
the out-of-position head record and continues on the updated sequence. -/
theorem optimize_pass_step_semantics_witness :
    optimize_loop gadget 0 4 =
      (optimize_loop gadgetAfter 1 3).map
        (fun p => (p.1, (mkRec "c" ["a"]).name :: p.2)) :=
  optimize_pass_step_semantics gadget gadgetAfter 0 3 (mkRec "c" ["a"])
    (by decide) (by decide) (by decide)

/-- Claim C5, counterexample: in the pass over `gadget` the record `s`
fails `position_OK` before the pass, is never visited by the cursor (the
first relocation shifts it to the already-passed position 0), and still
fails `position_OK` when the pass ends. -/
theorem pass_skips_violating_record :
    optimize_build_order gadget = some gadgetAfter ∧
    optimize_visited gadget = some ["c", "a", "c", "d"] ∧
    ¬ "s" ∈ ["c", "a", "c", "d"] ∧
    position_OK gadget "s" = some false ∧
    position_OK gadgetAfter "s" = some false := by
  refine ⟨by decide, by decide, by decide, by decide, by decide⟩

/-- Claim C6 (confirmed): with pairwise distinct names inside each block,
the pipeline of initial sort, merge and multipass optimization yields the
same result for any enumeration order of the incomplete and complete
records. -/
theorem pipeline_deterministic :
    ∀ (inc1 inc2 comp1 comp2 : List Meta) (mpn : Nat),
      inc1.Perm inc2 → comp1.Perm comp2 →
      (inc1.map Meta.name).Nodup → (comp1.map Meta.name).Nodup →
      pipeline inc1 comp1 mpn = pipeline inc2 comp2 mpn := by
  intro inc1 inc2 comp1 comp2 mpn hpi hpc hni hnc
  unfold pipeline
  rw [sort_by_peer_bdeps_eq hnc hpc]
  unfold merge_metas
  rw [mergeSort_byName_eq hni hpi]

/-- Claim C6, witness: two enumerations of the same records produce the
same pipeline output. -/
theorem pipeline_deterministic_witness :
    pipeline [mkInc "z", mkInc "y"] [mkRec "b" ["a"], mkRec "a" []] 8 =
      pipeline [mkInc "y", mkInc "z"] [mkRec "a" [], mkRec "b" ["a"]] 8 :=
  pipeline_deterministic [mkInc "z", mkInc "y"] [mkInc "y", mkInc "z"]
    [mkRec "b" ["a"], mkRec "a" []] [mkRec "a" [], mkRec "b" ["a"]] 8
    (by decide) (by decide) (by decide) (by decide)

/-- Claim C7 (confirmed): merging places the alphabetically sorted
incomplete records (which carry no peer dependencies) in front of the
complete ones, and every optimization pass leaves that block untouched —
the final list is the unchanged sorted incomplete block followed by a
permutation of the complete records, so no incomplete record is ever
relocated. -/
theorem merged_front_invariant :
    ∀ (inc comp s fin : List Meta),
      ((inc ++ comp).map Meta.name).Nodup →
      (∀ m ∈ inc, m.peer_bdeps = []) →
      (∀ m ∈ inc, m.complete = false) →
      (∀ m ∈ comp, m.complete = true) →
      (∀ m ∈ comp, ∀ d ∈ m.peer_bdeps, d ∈ comp.map Meta.name) →
      (∃ t, s = inc.mergeSort byName ++ t ∧ t.Perm comp) →
      optimize_build_order s = some fin →
      merge_metas inc comp = inc.mergeSort byName ++ comp ∧
      (inc.mergeSort byName).Perm inc ∧
      List.Pairwise (fun a b : Meta => a.name ≤ b.name) (inc.mergeSort byName) ∧
      ∃ t2, fin = inc.mergeSort byName ++ t2 ∧ t2.Perm comp := by
  intro inc comp s fin hn hfp _hic _hcc hcp hinv hpass
  have hfi : (inc.mergeSort byName).Perm inc := List.mergeSort_perm inc byName
  have hn2 : ((inc.mergeSort byName ++ comp).map Meta.name).Nodup := by
    have hap : (inc.mergeSort byName ++ comp).Perm (inc ++ comp) :=
      List.Perm.append_right comp hfi
    exact ((hap.map Meta.name).nodup_iff).mpr hn
  have hfp2 : ∀ m ∈ inc.mergeSort byName, m.peer_bdeps = [] := by
    intro m hm
    exact hfp m (hfi.mem_iff.mp hm)
  refine ⟨rfl, hfi, ?_, ?_⟩
  · refine (byName_sorted inc).imp ?_
    intro a b hab
    simpa [byName] using hab
  · exact optimize_build_order_preserves_front hn2 hfp2 hcp hinv hpass

/-- Claim C7, witness: a concrete merged working set keeps its incomplete
block in front, sorted, after a pass that relocates a complete record. -/
theorem merged_front_invariant_witness :
    merge_metas [mkInc "z", mkInc "y"] [mkRec "b" ["a"], mkRec "a" []] =
      ([mkInc "z", mkInc "y"] : List Meta).mergeSort byName ++
        [mkRec "b" ["a"], mkRec "a" []] ∧
    (([mkInc "z", mkInc "y"] : List Meta).mergeSort byName).Perm
      [mkInc "z", mkInc "y"] ∧
    List.Pairwise (fun a b : Meta => a.name ≤ b.name)
      (([mkInc "z", mkInc "y"] : List Meta).mergeSort byName) ∧
    ∃ t2, [mkInc "y", mkInc "z", mkRec "a" [], mkRec "b" ["a"]] =
      ([mkInc "z", mkInc "y"] : List Meta).mergeSort byName ++ t2 ∧
      t2.Perm [mkRec "b" ["a"], mkRec "a" []] :=
  merged_front_invariant [mkInc "z", mkInc "y"] [mkRec "b" ["a"], mkRec "a" []]
    [mkInc "y", mkInc "z", mkRec "b" ["a"], mkRec "a" []]
    [mkInc "y", mkInc "z", mkRec "a" [], mkRec "b" ["a"]]
    (by decide) (by decide) (by decide) (by decide) (by decide)
    ⟨[mkRec "b" ["a"], mkRec "a" []], by rw [mergeSort_pair_zy]; rfl, by decide⟩
    (by decide)

/-- Claim C8 (confirmed): on a working set where every record is active,
the manifest filter deactivates exactly the records whose name is absent
from the package list, keeps the list length and positions, and changes no
other field. -/
theorem filter_by_manifest_spec :
    ∀ (metas : List Meta) (packages : List String) (k : Nat) (m : Meta),
      (∀ m2 ∈ metas, m2.active = true) →
      metas[k]? = some m →
      (filter_by_manifest metas packages).length = metas.length ∧
      (filter_by_manifest metas packages)[k]? =
        some { m with active := decide (m.name ∈ packages) } := by
  intro metas packages k m hact hk
  constructor
  · simp [filter_by_manifest]
  · have hmem : m ∈ metas := by
      obtain ⟨hlt, hg⟩ := List.getElem?_eq_some_iff.mp hk
      exact hg ▸ List.getElem_mem hlt
    have hac : m.active = true := hact m hmem
    simp only [filter_by_manifest, List.getElem?_map, hk, Option.map_some']
    split
    · rename_i hcc
      rw [decide_eq_true hcc]
      cases m
      simp_all
    · rename_i hcc
      rw [decide_eq_false hcc]

/-- Claim C8, witness: a two-record set with one name in the manifest. -/
theorem filter_by_manifest_spec_witness :
    (filter_by_manifest [mkRec "a" [], mkRec "b" []] ["a"]).length =
      ([mkRec "a" [], mkRec "b" []] : List Meta).length ∧
    (filter_by_manifest [mkRec "a" [], mkRec "b" []] ["a"])[1]? =
      some { mkRec "b" [] with active := decide ((mkRec "b" []).name ∈ ["a"]) } :=
  filter_by_manifest_spec [mkRec "a" [], mkRec "b" []] ["a"] 1 (mkRec "b" [])
    (by decide) (by decide)

/-- Claim C9 (confirmed): the culled output is exactly the ordered
sequence filtered to active and non-archived records; flagging via the
archive index removes exactly the records whose canonical name is indexed
from the culled output and leaves the full ordered name list unchanged. -/
theorem print_culled_spec :
    ∀ (metas : List Meta) (idx : List String),
      print_culled metas =
        (metas.filter (fun m => m.active && !m.archived)).map (fun m => m.name) ∧
      print_list (flag_archived metas idx) = print_list metas ∧
      print_culled (flag_archived metas idx) =
        (metas.filter (fun m =>
          m.active && !m.archived && !(decide (m.canonical_name ∈ idx)))).map
          (fun m => m.name) :=
  fun metas idx =>
    ⟨rfl, flag_archived_print_list metas idx, flag_archived_print_culled metas idx⟩

/-- Claim C10 (confirmed): `is_valid` returns `true` on every metadata
dictionary (its `package`-key check only assigns a dead local), so a
recipe without a `package` section reaches the name lookup and raises
`KeyError` instead of being marked invalid. -/
theorem is_valid_always_true :
    ∀ md : MData, is_valid md = true ∧
      (md.package_name = none →
        import_name_step md = Except.error "KeyError: package") := by
  intro md
  constructor
  · rfl
  · intro h
    simp [import_name_step, is_valid, h]

/-- Claim C10, witness: metadata with no `package` section. -/
theorem is_valid_always_true_witness :
    is_valid ⟨none, none⟩ = true ∧
    import_name_step ⟨none, none⟩ = Except.error "KeyError: package" :=
  ⟨(is_valid_always_true ⟨none, none⟩).1, (is_valid_always_true ⟨none, none⟩).2 rfl⟩

end Rambo
